import Mathlib

/-!
Shallow embedding of `gen-random-rs` (`src/main.rs`): an xorshift64*
pseudorandom byte-stream generator that reseeds itself from an OS entropy
source and writes fixed-size chunks to a sink until the sink disconnects.

Machine integers (`u64`) are modelled as `Nat` with explicit reduction
modulo `2 ^ 64` where the Rust semantics wraps.  The I/O boundary is
modelled by a `World` giving the response of the entropy source to each
refill request and of the sink to each write, and the run produces a trace
of events together with its final result.
-/

namespace GenRandom

/-- Bytes per buffer: `const BUF_SIZE: usize = 32 * 1024;`. -/
def BUF_SIZE : Nat := 32 * 1024

/-- Buffer-fills per seed: `const RESEED_INTERVAL: usize = 512 * 1024 / BUF_SIZE;`. -/
def RESEED_INTERVAL : Nat := 512 * 1024 / BUF_SIZE

/-- Number of 64-bit words per buffer: `BUF_SIZE / mem::size_of::<u64>()`. -/
def BUF_WORDS : Nat := BUF_SIZE / 8

/-- The `u64` modulus. -/
def U64 : Nat := 2 ^ 64

/-- The xorshift64* output multiplier from the source. -/
def MULT : Nat := 2685821657736338717

/-- One state advance of the generator, from the inner loop of `run`:
`s ^= s >> 12; s ^= s << 25; s ^= s >> 27` on a `u64` state. -/
def xsStep (s : Nat) : Nat :=
  let a := s ^^^ (s >>> 12)
  let b := a ^^^ (a <<< 25 % U64)
  b ^^^ (b >>> 27)

/-- The emitted word: `s.wrapping_mul(2685821657736338717)`. -/
def outWord (s : Nat) : Nat := s * MULT % U64

/-- The inner loop `for e in buf_rands.iter_mut()`: generate `n` words
starting from state `s`, returning the words in order and the final
state. -/
def fillBuf (s : Nat) : Nat → List Nat × Nat
  | 0 => ([], s)
  | n + 1 =>
    let s' := xsStep s
    let rest := fillBuf s' n
    (outWord s' :: rest.1, rest.2)

/-- Little-endian byte serialization of one 64-bit word (the source relies
on the native in-memory byte order via `align_to`; one fixed order is
modelled). -/
def u64ToBytes (x : Nat) : List Nat :=
  [x % 2 ^ 8, x / 2 ^ 8 % 2 ^ 8, x / 2 ^ 16 % 2 ^ 8, x / 2 ^ 24 % 2 ^ 8,
   x / 2 ^ 32 % 2 ^ 8, x / 2 ^ 40 % 2 ^ 8, x / 2 ^ 48 % 2 ^ 8, x / 2 ^ 56 % 2 ^ 8]

/-- Byte view of a word buffer (`buf_rands.align_to::<u8>()`). -/
def wordsToBytes : List Nat → List Nat
  | [] => []
  | w :: ws => u64ToBytes w ++ wordsToBytes ws

/-- Reassemble one word from eight little-endian bytes. -/
def bytesToWord (b0 b1 b2 b3 b4 b5 b6 b7 : Nat) : Nat :=
  b0 + 2 ^ 8 * b1 + 2 ^ 16 * b2 + 2 ^ 24 * b3 +
    2 ^ 32 * b4 + 2 ^ 40 * b5 + 2 ^ 48 * b6 + 2 ^ 56 * b7

/-- Reinterpret a byte buffer as 64-bit words
(`buf_seeds.align_to_mut::<u8>()` read back as `u64`s). -/
def bytesToWords : List Nat → List Nat
  | b0 :: b1 :: b2 :: b3 :: b4 :: b5 :: b6 :: b7 :: rest =>
    bytesToWord b0 b1 b2 b3 b4 b5 b6 b7 :: bytesToWords rest
  | _ => []

/-- Outcome of one `out.write_all(...)` call. -/
inductive WriteOutcome
  | ok
  | brokenPipe
  | fatal
deriving DecidableEq

/-- The external world: the entropy source's response to the `i`-th refill
request (`none` = open/read error, `some bytes` = the bytes read), and the
sink's response to the `k`-th write call. -/
structure World where
  refill : Nat → Option (List Nat)
  write : Nat → WriteOutcome

/-- Which collaborator caused an `Err` return of `run`. -/
inductive RunError
  | entropy
  | sink
deriving DecidableEq

/-- Observable events of a run, in order. -/
inductive Event
  | refillOk (bytes : List Nat)
  | refillErr
  | seedCand (s : Nat)
  | writeOk (words : List Nat)
  | writeBP
  | writeFatal
deriving DecidableEq

/-- Result state of (a prefix of) a run: the event trace, the number of
write calls made so far, and `some r` when the run has returned. -/
structure Out where
  trace : List Event
  wIdx : Nat
  res : Option (Except RunError Unit)

/-- The loop `for _ in 0..RESEED_INTERVAL` of one seed: fill the output
buffer and write it, `n` remaining buffer-fills from state `s`, next write
index `wIdx`. -/
def doFills (w : World) : Nat → Nat → Nat → Out
  | 0, _, wIdx => ⟨[], wIdx, none⟩
  | n + 1, s, wIdx =>
    match w.write wIdx with
    | .ok =>
      let p := fillBuf s BUF_WORDS
      let o := doFills w n p.2 (wIdx + 1)
      ⟨.writeOk p.1 :: o.trace, o.wIdx, o.res⟩
    | .brokenPipe => ⟨[.writeBP], wIdx + 1, some (.ok ())⟩
    | .fatal => ⟨[.writeFatal], wIdx + 1, some (.error .sink)⟩

/-- The loop `for mut s in buf_seeds` with its `if s == 0 continue` guard:
process the seed candidates of one seed buffer in order. -/
def doSeeds (w : World) : List Nat → Nat → Out
  | [], wIdx => ⟨[], wIdx, none⟩
  | s :: rest, wIdx =>
    if s = 0 then
      let o := doSeeds w rest wIdx
      ⟨.seedCand 0 :: o.trace, o.wIdx, o.res⟩
    else
      let o1 := doFills w RESEED_INTERVAL s wIdx
      match o1.res with
      | some r => ⟨.seedCand s :: o1.trace, o1.wIdx, some r⟩
      | none =>
        let o2 := doSeeds w rest o1.wIdx
        ⟨.seedCand s :: o1.trace ++ o2.trace, o2.wIdx, o2.res⟩

/-- The outer `loop` of `run`, with fuel bounding the number of refill
iterations (`res = none` means the loop is still running). -/
def run (w : World) : Nat → Nat → Nat → Out
  | 0, _, wIdx => ⟨[], wIdx, none⟩
  | fuel + 1, rIdx, wIdx =>
    match w.refill rIdx with
    | none => ⟨[.refillErr], wIdx, some (.error .entropy)⟩
    | some bytes =>
      let o1 := doSeeds w (bytesToWords bytes) wIdx
      match o1.res with
      | some r => ⟨.refillOk bytes :: o1.trace, o1.wIdx, some r⟩
      | none =>
        let o2 := run w fuel (rIdx + 1) o1.wIdx
        ⟨.refillOk bytes :: o1.trace ++ o2.trace, o2.wIdx, o2.res⟩

/-- The word chunk of a successful write event, if any. -/
def Event.chunkOf : Event → Option (List Nat)
  | .writeOk ws => some ws
  | _ => none

/-- The seed value of a seed-candidate event, if any. -/
def Event.candOf : Event → Option Nat
  | .seedCand s => some s
  | _ => none

/-- The result a stopping event forces `run` to return, if it is one. -/
def Event.stopRes : Event → Option (Except RunError Unit)
  | .writeBP => some (.ok ())
  | .writeFatal => some (.error .sink)
  | .refillErr => some (.error .entropy)
  | _ => none

/-- The word chunks successfully written to the sink, in order. -/
def outputs (o : Out) : List (List Nat) := o.trace.filterMap Event.chunkOf

/-- The seed candidates considered, in order. -/
def cands (o : Out) : List Nat := o.trace.filterMap Event.candOf

/-- Total number of words written to the sink. -/
def totalWords (o : Out) : Nat := ((outputs o).map List.length).sum

/-- A world whose sink accepts every write; its entropy source returns an
empty byte buffer. -/
def okW : World := ⟨fun _ => some [], fun _ => .ok⟩

/-- Invariant tying a trace to a result: while the run has not returned, no
stopping event has occurred; when it has returned with `r`, the trace ends
with the stopping event that forces `r` and contains no earlier one. -/
def StopInvP (tr : List Event) : Option (Except RunError Unit) → Prop
  | none => ∀ e ∈ tr, e.stopRes = none
  | some r => ∃ t e, tr = t ++ [e] ∧ e.stopRes = some r ∧ ∀ x ∈ t, x.stopRes = none

/-- Eight little-endian bytes encoding the seed value 1. -/
def seed1Bytes : List Nat := [1, 0, 0, 0, 0, 0, 0, 0]

/-- A world whose sink reports broken pipe on the first write. -/
def wBP : World := ⟨fun _ => some seed1Bytes, fun _ => .brokenPipe⟩

/-- A world whose entropy source always fails. -/
def wErr : World := ⟨fun _ => none, fun _ => .ok⟩

/-- A world whose sink fails fatally (not broken pipe) on the first write. -/
def wFat : World := ⟨fun _ => some seed1Bytes, fun _ => .fatal⟩

def joinChunks : List (List Nat) → List Nat
  | [] => []
  | c :: cs => c ++ joinChunks cs

/-- The byte stream a run writes to the sink. -/
def outBytes (o : Out) : List Nat := wordsToBytes (joinChunks (outputs o))

/-- A second always-accepting world with the same entropy responses as
`okW`, declared separately. -/
def okW' : World := ⟨fun _ => some [], fun _ => .ok⟩

/-- A world whose entropy source supplies an all-zeroes seed buffer of the
right size and whose sink always accepts. -/
def wZ : World := ⟨fun _ => some (List.replicate BUF_SIZE 0), fun _ => .ok⟩

/-! ## Equation lemmas for the run functions -/

theorem fillBuf_succ (s n : Nat) :
    fillBuf s (n + 1) =
      (outWord (xsStep s) :: (fillBuf (xsStep s) n).1, (fillBuf (xsStep s) n).2) := rfl

theorem doFills_zero (w : World) (s i : Nat) : doFills w 0 s i = ⟨[], i, none⟩ := rfl

theorem doFills_ok (w : World) (n s i : Nat) (h : w.write i = .ok) :
    doFills w (n + 1) s i =
      ⟨.writeOk (fillBuf s BUF_WORDS).1 ::
          (doFills w n (fillBuf s BUF_WORDS).2 (i + 1)).trace,
        (doFills w n (fillBuf s BUF_WORDS).2 (i + 1)).wIdx,
        (doFills w n (fillBuf s BUF_WORDS).2 (i + 1)).res⟩ := by
  simp [doFills, h]

theorem doFills_bp (w : World) (n s i : Nat) (h : w.write i = .brokenPipe) :
    doFills w (n + 1) s i = ⟨[.writeBP], i + 1, some (.ok ())⟩ := by
  simp [doFills, h]

theorem doFills_fatal (w : World) (n s i : Nat) (h : w.write i = .fatal) :
    doFills w (n + 1) s i = ⟨[.writeFatal], i + 1, some (.error .sink)⟩ := by
  simp [doFills, h]

theorem doSeeds_nil (w : World) (i : Nat) : doSeeds w [] i = ⟨[], i, none⟩ := rfl

theorem doSeeds_zero (w : World) (rest : List Nat) (i : Nat) :
    doSeeds w (0 :: rest) i =
      ⟨.seedCand 0 :: (doSeeds w rest i).trace, (doSeeds w rest i).wIdx,
        (doSeeds w rest i).res⟩ := by
  simp [doSeeds]

theorem doSeeds_pos_stop (w : World) (s : Nat) (rest : List Nat) (i : Nat)
    (r : Except RunError Unit) (hs : s ≠ 0)
    (h : (doFills w RESEED_INTERVAL s i).res = some r) :
    doSeeds w (s :: rest) i =
      ⟨.seedCand s :: (doFills w RESEED_INTERVAL s i).trace,
        (doFills w RESEED_INTERVAL s i).wIdx, some r⟩ := by
  simp [doSeeds, hs, h]

theorem doSeeds_pos_cont (w : World) (s : Nat) (rest : List Nat) (i : Nat)
    (hs : s ≠ 0) (h : (doFills w RESEED_INTERVAL s i).res = none) :
    doSeeds w (s :: rest) i =
      ⟨.seedCand s :: (doFills w RESEED_INTERVAL s i).trace ++
          (doSeeds w rest (doFills w RESEED_INTERVAL s i).wIdx).trace,
        (doSeeds w rest (doFills w RESEED_INTERVAL s i).wIdx).wIdx,
        (doSeeds w rest (doFills w RESEED_INTERVAL s i).wIdx).res⟩ := by
  simp [doSeeds, hs, h]

theorem run_zero (w : World) (r i : Nat) : run w 0 r i = ⟨[], i, none⟩ := rfl

theorem run_refillErr (w : World) (fuel r i : Nat) (h : w.refill r = none) :
    run w (fuel + 1) r i = ⟨[.refillErr], i, some (.error .entropy)⟩ := by
  simp [run, h]

theorem run_stop (w : World) (fuel r i : Nat) (bytes : List Nat)
    (res : Except RunError Unit) (h : w.refill r = some bytes)
    (h2 : (doSeeds w (bytesToWords bytes) i).res = some res) :
    run w (fuel + 1) r i =
      ⟨.refillOk bytes :: (doSeeds w (bytesToWords bytes) i).trace,
        (doSeeds w (bytesToWords bytes) i).wIdx, some res⟩ := by
  simp [run, h, h2]

theorem run_cont (w : World) (fuel r i : Nat) (bytes : List Nat)
    (h : w.refill r = some bytes)
    (h2 : (doSeeds w (bytesToWords bytes) i).res = none) :
    run w (fuel + 1) r i =
      ⟨.refillOk bytes :: (doSeeds w (bytesToWords bytes) i).trace ++
          (run w fuel (r + 1) (doSeeds w (bytesToWords bytes) i).wIdx).trace,
        (run w fuel (r + 1) (doSeeds w (bytesToWords bytes) i).wIdx).wIdx,
        (run w fuel (r + 1) (doSeeds w (bytesToWords bytes) i).wIdx).res⟩ := by
  simp [run, h, h2]

/-! ## C1: the advance step and the golden vector for seed 1 -/

/-- C1: for every non-zero 64-bit state `s`, one generation step transforms
the state exactly as `s ^= s >> 12; s ^= s << 25; s ^= s >> 27` (shifts and
wrapping expressed arithmetically), emits the word `s * 2685821657736338717`
reduced mod `2 ^ 64`, and for the fixed seed 1 the first emitted word of the
run is the value 5180492295206395165 that this exact sequence produces. -/
theorem step_formula_and_golden_vector (s : Nat) (hs : s ≠ 0) (hlt : s < 2 ^ 64) :
    xsStep s =
      (let a := s ^^^ s / 2 ^ 12
       let b := a ^^^ a * 2 ^ 25 % 2 ^ 64
       b ^^^ b / 2 ^ 27)
    ∧ outWord (xsStep s) = xsStep s * 2685821657736338717 % 2 ^ 64
    ∧ (fillBuf 1 BUF_WORDS).1.head? = some 5180492295206395165 := by
  refine ⟨?_, rfl, ?_⟩
  · simp [xsStep, U64, Nat.shiftRight_eq_div_pow, Nat.shiftLeft_eq]
  · have h : BUF_WORDS = 4095 + 1 := by norm_num [BUF_WORDS, BUF_SIZE]
    rw [h, fillBuf_succ]
    have : outWord (xsStep 1) = 5180492295206395165 := by decide
    simp [this]

theorem step_formula_and_golden_vector_w :
    (1 : Nat) ≠ 0 ∧ (1 : Nat) < 2 ^ 64 ∧
      ((fillBuf 1 BUF_WORDS).1.head? = some 5180492295206395165) :=
  ⟨by decide, by norm_num,
    (step_formula_and_golden_vector 1 (by decide) (by norm_num)).2.2⟩

/-! ## C3: the configuration invariants -/

/-- C3 counterexample: the claimed conjunction fails on the configured
constants — `BUF_SIZE = 32768` is a multiple of 8, but the source constant
`RESEED_INTERVAL = 16` is not a multiple of `BUF_WORDS = 4096`. -/
theorem config_claim_fails :
    ¬ (BUF_SIZE % 8 = 0 ∧ RESEED_INTERVAL % BUF_WORDS = 0) := by decide

/-- C3 amended: `BUF_SIZE` is a multiple of 8, `BUF_WORDS = BUF_SIZE / 8`,
and the number of words produced per seed — which is
`RESEED_INTERVAL * BUF_WORDS`, since the source's `RESEED_INTERVAL` counts
buffer-fills per seed, not words — is a multiple of `BUF_WORDS`. -/
theorem config_invariants :
    BUF_SIZE % 8 = 0 ∧ BUF_WORDS = BUF_SIZE / 8 ∧
      (RESEED_INTERVAL * BUF_WORDS) % BUF_WORDS = 0 := by decide

/-! ## C4: zero seeds are skipped -/

/-- C4: zero seeds produce no output and consume no reseed budget: the
written chunks, the number of write calls, and the result of processing a
seed buffer coincide with those of processing only its non-zero seeds. -/
theorem zero_seed_skip (w : World) (seeds : List Nat) (i : Nat) :
    outputs (doSeeds w seeds i) =
        outputs (doSeeds w (seeds.filter (fun s => s != 0)) i)
      ∧ (doSeeds w seeds i).wIdx =
        (doSeeds w (seeds.filter (fun s => s != 0)) i).wIdx
      ∧ (doSeeds w seeds i).res =
        (doSeeds w (seeds.filter (fun s => s != 0)) i).res := by
  induction seeds generalizing i with
  | nil => exact ⟨rfl, rfl, rfl⟩
  | cons s rest ih =>
    by_cases hs : s = 0
    · subst hs
      have hfc : (0 :: rest).filter (fun s => s != 0) = rest.filter (fun s => s != 0) := by
        simp
      rw [hfc, doSeeds_zero]
      refine ⟨?_, (ih i).2.1, (ih i).2.2⟩
      have h1 : outputs ⟨Event.seedCand 0 :: (doSeeds w rest i).trace,
          (doSeeds w rest i).wIdx, (doSeeds w rest i).res⟩ =
          outputs (doSeeds w rest i) := by
        simp [outputs, Event.chunkOf]
      rw [h1]
      exact (ih i).1
    · have hfc : (s :: rest).filter (fun t => t != 0) =
          s :: rest.filter (fun t => t != 0) := by
        simp [hs]
      rw [hfc]
      rcases hres : (doFills w RESEED_INTERVAL s i).res with _ | r
      · rw [doSeeds_pos_cont w s rest i hs hres,
          doSeeds_pos_cont w s (rest.filter (fun t => t != 0)) i hs hres]
        refine ⟨?_, (ih _).2.1, (ih _).2.2⟩
        simp only [outputs, List.filterMap_cons, List.filterMap_append, Event.chunkOf]
        have := (ih (doFills w RESEED_INTERVAL s i).wIdx).1
        simp only [outputs] at this
        rw [this]
      · rw [doSeeds_pos_stop w s rest i r hs hres,
          doSeeds_pos_stop w s (rest.filter (fun t => t != 0)) i r hs hres]
        exact ⟨rfl, rfl, rfl⟩

/-! ## Length lemmas and C2: the reseed cadence -/

theorem fillBuf_len (s n : Nat) : (fillBuf s n).1.length = n := by
  induction n generalizing s with
  | zero => rfl
  | succ n ih => rw [fillBuf_succ]; simp [ih]

/-- Under an always-accepting sink, `n` buffer-fills from any state produce
exactly `n` chunks of `BUF_WORDS` words each, make `n` write calls, and do
not terminate the run. -/
theorem doFills_allok (w : World) (hall : ∀ k, w.write k = .ok) (n s i : Nat) :
    (doFills w n s i).res = none
    ∧ (doFills w n s i).wIdx = i + n
    ∧ (outputs (doFills w n s i)).length = n
    ∧ ∀ c ∈ outputs (doFills w n s i), c.length = BUF_WORDS := by
  induction n generalizing s i with
  | zero => simp [doFills_zero, outputs]
  | succ n ih =>
    rw [doFills_ok w n s i (hall i)]
    dsimp only
    obtain ⟨h1, h2, h3, h4⟩ := ih (fillBuf s BUF_WORDS).2 (i + 1)
    refine ⟨h1, by omega, ?_, ?_⟩
    · simp only [outputs, List.filterMap_cons, Event.chunkOf] at h3 ⊢
      simp [h3]
    · intro c hc
      simp only [outputs, List.filterMap_cons, Event.chunkOf, List.mem_cons] at hc
      rcases hc with hc | hc
      · subst hc; exact fillBuf_len s BUF_WORDS
      · exact h4 c hc

theorem totalWords_allok (w : World) (hall : ∀ k, w.write k = .ok) (n s i : Nat) :
    totalWords (doFills w n s i) = n * BUF_WORDS := by
  obtain ⟨-, -, h3, h4⟩ := doFills_allok w hall n s i
  have : (outputs (doFills w n s i)).map List.length =
      List.replicate n BUF_WORDS := by
    apply List.eq_replicate_iff.2
    refine ⟨by simp [h3], ?_⟩
    intro b hb
    simp only [List.mem_map] at hb
    obtain ⟨c, hc, hb⟩ := hb
    rw [← hb]; exact h4 c hc
  rw [totalWords, this, List.sum_replicate, smul_eq_mul]

/-- C2 counterexample: from the non-zero seed 1 (with an always-accepting
sink) the run produces `RESEED_INTERVAL * BUF_WORDS = 65536` output words,
not `RESEED_INTERVAL = 16` words as claimed. -/
theorem reseed_words_ne_interval :
    totalWords (doFills okW RESEED_INTERVAL 1 0) ≠ RESEED_INTERVAL := by
  rw [totalWords_allok okW (fun _ => rfl) RESEED_INTERVAL 1 0]
  decide

/-- C2 amended: for every non-zero seed (under an always-accepting sink),
exactly `RESEED_INTERVAL` full buffer-fills — that is,
`RESEED_INTERVAL * BUF_WORDS` output words — are produced from that seed
before generation moves to the next seed in the seed buffer. -/
theorem reseed_cadence (w : World) (hall : ∀ k, w.write k = .ok)
    (s : Nat) (hs : s ≠ 0) (rest : List Nat) (i : Nat) :
    (outputs (doFills w RESEED_INTERVAL s i)).length = RESEED_INTERVAL
    ∧ totalWords (doFills w RESEED_INTERVAL s i) = RESEED_INTERVAL * BUF_WORDS
    ∧ doSeeds w (s :: rest) i =
        ⟨.seedCand s :: (doFills w RESEED_INTERVAL s i).trace ++
            (doSeeds w rest (i + RESEED_INTERVAL)).trace,
          (doSeeds w rest (i + RESEED_INTERVAL)).wIdx,
          (doSeeds w rest (i + RESEED_INTERVAL)).res⟩ := by
  obtain ⟨h1, h2, h3, -⟩ := doFills_allok w hall RESEED_INTERVAL s i
  refine ⟨h3, totalWords_allok w hall RESEED_INTERVAL s i, ?_⟩
  rw [doSeeds_pos_cont w s rest i hs h1, h2]

theorem reseed_cadence_w :
    (outputs (doFills okW RESEED_INTERVAL 1 0)).length = RESEED_INTERVAL
    ∧ totalWords (doFills okW RESEED_INTERVAL 1 0) = RESEED_INTERVAL * BUF_WORDS
    ∧ doSeeds okW [1] 0 =
        ⟨.seedCand 1 :: (doFills okW RESEED_INTERVAL 1 0).trace ++
            (doSeeds okW [] (0 + RESEED_INTERVAL)).trace,
          (doSeeds okW [] (0 + RESEED_INTERVAL)).wIdx,
          (doSeeds okW [] (0 + RESEED_INTERVAL)).res⟩ :=
  reseed_cadence okW (fun _ => rfl) 1 (by decide) [] 0

/-! ## Stopping events: a run returns exactly at its first stopping event -/

theorem stopInvP_cons (a : Event) (ha : a.stopRes = none) (tr : List Event)
    (res : Option (Except RunError Unit)) (h : StopInvP tr res) :
    StopInvP (a :: tr) res := by
  match res, h with
  | none, h =>
    intro e he
    rcases List.mem_cons.1 he with he | he
    · subst he; exact ha
    · exact h e he
  | some r, ⟨t, e, htr, he, hall⟩ =>
    refine ⟨a :: t, e, by simp [htr], he, ?_⟩
    intro x hx
    rcases List.mem_cons.1 hx with hx | hx
    · subst hx; exact ha
    · exact hall x hx

theorem stopInvP_append (A : List Event) (hA : ∀ x ∈ A, x.stopRes = none)
    (tr : List Event) (res : Option (Except RunError Unit))
    (h : StopInvP tr res) : StopInvP (A ++ tr) res := by
  induction A with
  | nil => exact h
  | cons a A ih =>
    have := ih (fun x hx => hA x (List.mem_cons_of_mem a hx))
    exact stopInvP_cons a (hA a (List.mem_cons_self a A)) (A ++ tr) res this

theorem append_cons_eq_concat {α : Type} (t t₁ t₂ : List α) (e e' : α)
    (h : t₁ ++ e :: t₂ = t ++ [e']) (hne : e ∉ t) : t₂ = [] ∧ e = e' := by
  induction t₁ generalizing t with
  | nil =>
    simp only [List.nil_append] at h
    cases t with
    | nil =>
      injection h with h1 h2
      exact ⟨h2, h1⟩
    | cons x t' =>
      rw [List.cons_append] at h
      injection h with h1 h2
      exact absurd (h1 ▸ List.mem_cons_self x t') hne
  | cons a t₁' ih =>
    cases t with
    | nil =>
      simp only [List.nil_append, List.cons_append] at h
      injection h with h1 h2
      exact absurd h2 (by simp)
    | cons x t' =>
      rw [List.cons_append, List.cons_append] at h
      injection h with h1 h2
      exact ih t' h2 (fun hm => hne (List.mem_cons_of_mem x hm))

theorem stopInvP_final (tr : List Event) (res : Option (Except RunError Unit))
    (h : StopInvP tr res) (e : Event) (r : Except RunError Unit)
    (he : e.stopRes = some r) (t₁ t₂ : List Event)
    (htr : tr = t₁ ++ e :: t₂) : t₂ = [] ∧ res = some r := by
  match res, h with
  | none, h =>
    exfalso
    have hmem : e ∈ tr := by rw [htr]; simp
    rw [h e hmem] at he
    exact Option.noConfusion he
  | some r0, ⟨t, e', htr', he', hall⟩ =>
    rw [htr] at htr'
    have hne : e ∉ t := by
      intro hm
      rw [hall e hm] at he
      exact Option.noConfusion he
    obtain ⟨h2, h1⟩ := append_cons_eq_concat t t₁ t₂ e e' htr' hne
    subst h1
    rw [he] at he'
    rw [Option.some_inj.1 he']
    exact ⟨h2, rfl⟩

theorem stopInv_doFills (w : World) (n s i : Nat) :
    StopInvP (doFills w n s i).trace (doFills w n s i).res := by
  induction n generalizing s i with
  | zero =>
    rw [doFills_zero]
    intro e he
    simp at he
  | succ n ih =>
    rcases hw : w.write i with _ | _ | _
    · rw [doFills_ok w n s i hw]
      exact stopInvP_cons (.writeOk (fillBuf s BUF_WORDS).1) rfl _ _
        (ih (fillBuf s BUF_WORDS).2 (i + 1))
    · rw [doFills_bp w n s i hw]
      exact ⟨[], .writeBP, rfl, rfl, by simp⟩
    · rw [doFills_fatal w n s i hw]
      exact ⟨[], .writeFatal, rfl, rfl, by simp⟩

theorem stopInv_doSeeds (w : World) (seeds : List Nat) (i : Nat) :
    StopInvP (doSeeds w seeds i).trace (doSeeds w seeds i).res := by
  induction seeds generalizing i with
  | nil =>
    rw [doSeeds_nil]
    intro e he
    simp at he
  | cons s rest ih =>
    by_cases hs : s = 0
    · subst hs
      rw [doSeeds_zero]
      exact stopInvP_cons (.seedCand 0) rfl _ _ (ih i)
    · rcases hres : (doFills w RESEED_INTERVAL s i).res with _ | r
      · rw [doSeeds_pos_cont w s rest i hs hres]
        have h1 := stopInv_doFills w RESEED_INTERVAL s i
        rw [hres] at h1
        refine stopInvP_cons (.seedCand s) rfl _ _ (stopInvP_append _ h1 _ _ ?_)
        exact ih (doFills w RESEED_INTERVAL s i).wIdx
      · rw [doSeeds_pos_stop w s rest i r hs hres]
        have h1 := stopInv_doFills w RESEED_INTERVAL s i
        rw [hres] at h1
        exact stopInvP_cons (.seedCand s) rfl _ _ h1

theorem stopInv_run (w : World) (fuel r i : Nat) :
    StopInvP (run w fuel r i).trace (run w fuel r i).res := by
  induction fuel generalizing r i with
  | zero =>
    rw [run_zero]
    intro e he
    simp at he
  | succ fuel ih =>
    rcases hr : w.refill r with _ | bytes
    · rw [run_refillErr w fuel r i hr]
      exact ⟨[], .refillErr, rfl, rfl, by simp⟩
    · rcases hres : (doSeeds w (bytesToWords bytes) i).res with _ | res
      · rw [run_cont w fuel r i bytes hr hres]
        have h1 := stopInv_doSeeds w (bytesToWords bytes) i
        rw [hres] at h1
        refine stopInvP_cons (.refillOk bytes) rfl _ _ (stopInvP_append _ h1 _ _ ?_)
        exact ih (r + 1) (doSeeds w (bytesToWords bytes) i).wIdx
      · rw [run_stop w fuel r i bytes res hr hres]
        have h1 := stopInv_doSeeds w (bytesToWords bytes) i
        rw [hres] at h1
        exact stopInvP_cons (.refillOk bytes) rfl _ _ h1

/-! ## C5 and C6: termination policy -/

theorem stopRes_ok_eq_writeBP (e : Event) (h : e.stopRes = some (.ok ())) :
    e = .writeBP := by
  cases e <;> first | rfl | simp [Event.stopRes] at h

/-- C5: if a sink write reports broken pipe, `run` returns `Ok` immediately:
the broken-pipe event is the last event of the run — no further write or
entropy-read event follows it — and the result is success; conversely this
is the only normal termination of the loop — a success result arises only
from a run whose trace ends with that broken-pipe write. -/
theorem broken_pipe_clean_shutdown (w : World) (fuel r i : Nat) :
    (∀ t₁ t₂, (run w fuel r i).trace = t₁ ++ Event.writeBP :: t₂ →
        t₂ = [] ∧ (run w fuel r i).res = some (.ok ()))
    ∧ ((run w fuel r i).res = some (.ok ()) →
        ∃ t, (run w fuel r i).trace = t ++ [Event.writeBP]) := by
  refine ⟨?_, ?_⟩
  · intro t₁ t₂ h
    exact stopInvP_final _ _ (stopInv_run w fuel r i) .writeBP (.ok ()) rfl t₁ t₂ h
  · intro h
    have hinv := stopInv_run w fuel r i
    rw [h] at hinv
    obtain ⟨t, e, htr, he, -⟩ := hinv
    exact ⟨t, stopRes_ok_eq_writeBP e he ▸ htr⟩

theorem broken_pipe_clean_shutdown_w :
    (([] : List Event) = [] ∧ (run wBP 1 0 0).res = some (.ok ()))
    ∧ ∃ t, (run wBP 1 0 0).trace = t ++ [Event.writeBP] :=
  ⟨(broken_pipe_clean_shutdown wBP 1 0 0).1 [.refillOk seed1Bytes, .seedCand 1]
      [] (by rfl),
    (broken_pipe_clean_shutdown wBP 1 0 0).2 (by rfl)⟩

/-- C6: an entropy-source failure is propagated at once as the run's own
error result (no retry: the refill-error event ends the trace), and a sink
write failure other than broken pipe likewise ends the run with an error. -/
theorem fatal_errors_propagate (w : World) (fuel r i : Nat) :
    (w.refill r = none →
      run w (fuel + 1) r i = ⟨[.refillErr], i, some (.error .entropy)⟩)
    ∧ (∀ t₁ t₂, (run w fuel r i).trace = t₁ ++ Event.refillErr :: t₂ →
        t₂ = [] ∧ (run w fuel r i).res = some (.error .entropy))
    ∧ (∀ t₁ t₂, (run w fuel r i).trace = t₁ ++ Event.writeFatal :: t₂ →
        t₂ = [] ∧ (run w fuel r i).res = some (.error .sink)) := by
  refine ⟨run_refillErr w fuel r i, ?_, ?_⟩
  · intro t₁ t₂ h
    exact stopInvP_final _ _ (stopInv_run w fuel r i) .refillErr (.error .entropy)
      rfl t₁ t₂ h
  · intro t₁ t₂ h
    exact stopInvP_final _ _ (stopInv_run w fuel r i) .writeFatal (.error .sink)
      rfl t₁ t₂ h

theorem fatal_errors_propagate_w :
    run wErr 1 0 0 = ⟨[.refillErr], 0, some (.error .entropy)⟩
    ∧ (([] : List Event) = []
        ∧ (run wFat 1 0 0).res = some (.error .sink)) :=
  ⟨(fatal_errors_propagate wErr 0 0 0).1 rfl,
    (fatal_errors_propagate wFat 1 0 0).2.2 [.refillOk seed1Bytes, .seedCand 1]
      [] (by rfl)⟩

/-! ## C7: determinism -/

theorem doFills_congr (w₁ w₂ : World) (hw : ∀ k, w₁.write k = w₂.write k)
    (n s i : Nat) : doFills w₁ n s i = doFills w₂ n s i := by
  induction n generalizing s i with
  | zero => rw [doFills_zero, doFills_zero]
  | succ n ih =>
    have h2 := hw i
    rcases h : w₁.write i with _ | _ | _ <;> rw [h] at h2
    · rw [doFills_ok w₁ n s i h, doFills_ok w₂ n s i h2.symm, ih]
    · rw [doFills_bp w₁ n s i h, doFills_bp w₂ n s i h2.symm]
    · rw [doFills_fatal w₁ n s i h, doFills_fatal w₂ n s i h2.symm]

theorem doSeeds_congr (w₁ w₂ : World) (hw : ∀ k, w₁.write k = w₂.write k)
    (seeds : List Nat) (i : Nat) : doSeeds w₁ seeds i = doSeeds w₂ seeds i := by
  induction seeds generalizing i with
  | nil => rw [doSeeds_nil, doSeeds_nil]
  | cons s rest ih =>
    by_cases hs : s = 0
    · subst hs
      rw [doSeeds_zero, doSeeds_zero, ih i]
    · have hf := doFills_congr w₁ w₂ hw RESEED_INTERVAL s i
      rcases hres : (doFills w₁ RESEED_INTERVAL s i).res with _ | r
      · rw [doSeeds_pos_cont w₁ s rest i hs hres,
          doSeeds_pos_cont w₂ s rest i hs (hf ▸ hres), hf, ih]
      · rw [doSeeds_pos_stop w₁ s rest i r hs hres,
          doSeeds_pos_stop w₂ s rest i r hs (hf ▸ hres), hf]

theorem run_congr (w₁ w₂ : World) (hr : ∀ k, w₁.refill k = w₂.refill k)
    (hw : ∀ k, w₁.write k = w₂.write k) (fuel r i : Nat) :
    run w₁ fuel r i = run w₂ fuel r i := by
  induction fuel generalizing r i with
  | zero => rw [run_zero, run_zero]
  | succ fuel ih =>
    have h2 := hr r
    rcases h : w₁.refill r with _ | bytes <;> rw [h] at h2
    · rw [run_refillErr w₁ fuel r i h, run_refillErr w₂ fuel r i h2.symm]
    · have hd := doSeeds_congr w₁ w₂ hw (bytesToWords bytes) i
      rcases hres : (doSeeds w₁ (bytesToWords bytes) i).res with _ | res
      · rw [run_cont w₁ fuel r i bytes h hres,
          run_cont w₂ fuel r i bytes h2.symm (hd ▸ hres), hd, ih]
      · rw [run_stop w₁ fuel r i bytes res h hres,
          run_stop w₂ fuel r i bytes res h2.symm (hd ▸ hres), hd]

/-- C7: generation is deterministic — two runs whose entropy sources supply
identical seed bytes and whose sinks always accept produce the same event
trace and, in particular, byte-identical output streams. -/
theorem deterministic_output (w₁ w₂ : World) (fuel r i : Nat)
    (hr : ∀ k, w₁.refill k = w₂.refill k)
    (h1 : ∀ k, w₁.write k = .ok) (h2 : ∀ k, w₂.write k = .ok) :
    outBytes (run w₁ fuel r i) = outBytes (run w₂ fuel r i)
    ∧ run w₁ fuel r i = run w₂ fuel r i := by
  have hw : ∀ k, w₁.write k = w₂.write k := fun k => (h1 k).trans (h2 k).symm
  have h := run_congr w₁ w₂ hr hw fuel r i
  exact ⟨by rw [h], h⟩

theorem deterministic_output_w :
    outBytes (run okW 2 0 0) = outBytes (run okW' 2 0 0)
    ∧ run okW 2 0 0 = run okW' 2 0 0 :=
  deterministic_output okW okW' 2 0 0 (fun _ => rfl) (fun _ => rfl) (fun _ => rfl)

/-! ## C8: every refilled seed word is considered exactly once, in order -/

theorem bytesToWords_length (bs : List Nat) :
    (bytesToWords bs).length = bs.length / 8 := by
  induction bs using bytesToWords.induct with
  | case1 b0 b1 b2 b3 b4 b5 b6 b7 rest ih =>
    simp [bytesToWords, ih]
    omega
  | case2 l h =>
    rcases l with _ | ⟨a, _ | ⟨b, _ | ⟨c, _ | ⟨d, _ | ⟨e, _ | ⟨f, _ | ⟨g, _ | ⟨x, t⟩⟩⟩⟩⟩⟩⟩⟩ <;>
      first
        | (exact absurd rfl (h _ _ _ _ _ _ _ _ _))
        | simp [bytesToWords]

theorem doFills_no_cands (w : World) (n s i : Nat) :
    (doFills w n s i).trace.filterMap Event.candOf = [] := by
  induction n generalizing s i with
  | zero => simp [doFills_zero]
  | succ n ih =>
    rcases h : w.write i with _ | _ | _
    · rw [doFills_ok w n s i h]
      simp [Event.candOf, ih]
    · rw [doFills_bp w n s i h]
      simp [Event.candOf]
    · rw [doFills_fatal w n s i h]
      simp [Event.candOf]

theorem doSeeds_cands (w : World) (seeds : List Nat) (i : Nat)
    (h : (doSeeds w seeds i).res = none) :
    cands (doSeeds w seeds i) = seeds := by
  induction seeds generalizing i with
  | nil => simp [doSeeds_nil, cands]
  | cons s rest ih =>
    by_cases hs : s = 0
    · subst hs
      rw [doSeeds_zero] at h ⊢
      dsimp only at h
      simp only [cands, List.filterMap_cons, Event.candOf]
      exact congrArg (0 :: ·) (ih i h)
    · rcases hres : (doFills w RESEED_INTERVAL s i).res with _ | r
      · rw [doSeeds_pos_cont w s rest i hs hres] at h ⊢
        dsimp only at h
        simp only [cands, List.filterMap_cons, List.filterMap_append, Event.candOf,
          doFills_no_cands, List.nil_append]
        exact congrArg (s :: ·) (ih _ h)
      · exfalso
        rw [doSeeds_pos_stop w s rest i r hs hres] at h
        exact Option.noConfusion h

/-- C8: when the run completes a seed buffer (no stopping event occurs in
it), each refill yields `BUF_SIZE` bytes reinterpreted as exactly
`BUF_WORDS` 64-bit seed values, every one of those words is considered as a
seed candidate exactly once, in buffer order, and only after all of them
does the next refill happen. -/
theorem seed_buffer_used_once (w : World) (bytes seeds : List Nat)
    (fuel r i : Nat) (hb : w.refill r = some bytes)
    (hlen : bytes.length = BUF_SIZE) (hseeds : seeds = bytesToWords bytes)
    (hres : (doSeeds w seeds i).res = none) :
    seeds.length = BUF_WORDS
    ∧ cands (doSeeds w seeds i) = seeds
    ∧ run w (fuel + 1) r i =
        ⟨.refillOk bytes :: (doSeeds w seeds i).trace ++
            (run w fuel (r + 1) (doSeeds w seeds i).wIdx).trace,
          (run w fuel (r + 1) (doSeeds w seeds i).wIdx).wIdx,
          (run w fuel (r + 1) (doSeeds w seeds i).wIdx).res⟩ := by
  subst hseeds
  refine ⟨?_, doSeeds_cands w _ i hres, run_cont w fuel r i bytes hb hres⟩
  rw [bytesToWords_length, hlen]
  rfl

theorem bytesToWords_replicate_zero (n : Nat) :
    bytesToWords (List.replicate (8 * n) 0) = List.replicate n 0 := by
  induction n with
  | zero => rfl
  | succ n ih =>
    have h8 : 8 * (n + 1) = 8 + 8 * n := by ring
    rw [h8, List.replicate_add]
    have hstep : bytesToWords (List.replicate 8 0 ++ List.replicate (8 * n) 0) =
        bytesToWord 0 0 0 0 0 0 0 0 :: bytesToWords (List.replicate (8 * n) 0) := rfl
    rw [hstep, ih, List.replicate_succ]
    norm_num [bytesToWord]

theorem doSeeds_replicate_zero_res (w : World) (n i : Nat) :
    (doSeeds w (List.replicate n 0) i).res = none := by
  induction n generalizing i with
  | zero => rfl
  | succ n ih =>
    rw [List.replicate_succ, doSeeds_zero]
    exact ih i

theorem seed_buffer_used_once_w :
    (bytesToWords (List.replicate BUF_SIZE 0)).length = BUF_WORDS
    ∧ cands (doSeeds wZ (bytesToWords (List.replicate BUF_SIZE 0)) 0) =
        bytesToWords (List.replicate BUF_SIZE 0)
    ∧ run wZ (1 + 1) 0 0 =
        ⟨.refillOk (List.replicate BUF_SIZE 0) ::
            (doSeeds wZ (bytesToWords (List.replicate BUF_SIZE 0)) 0).trace ++
            (run wZ 1 (0 + 1)
              (doSeeds wZ (bytesToWords (List.replicate BUF_SIZE 0)) 0).wIdx).trace,
          (run wZ 1 (0 + 1)
            (doSeeds wZ (bytesToWords (List.replicate BUF_SIZE 0)) 0).wIdx).wIdx,
          (run wZ 1 (0 + 1)
            (doSeeds wZ (bytesToWords (List.replicate BUF_SIZE 0)) 0).wIdx).res⟩ :=
  seed_buffer_used_once wZ (List.replicate BUF_SIZE 0)
    (bytesToWords (List.replicate BUF_SIZE 0)) 1 0 0 rfl
    (List.length_replicate BUF_SIZE 0) rfl
    (by
      rw [show BUF_SIZE = 8 * 4096 by norm_num [BUF_SIZE],
        bytesToWords_replicate_zero]
      exact doSeeds_replicate_zero_res wZ 4096 0)

/-! ## C9: the state stays non-zero, and so does every output word -/

theorem xor_shr_ne_zero (s k : Nat) (hs : s ≠ 0) (hk : 0 < k) :
    s ^^^ (s >>> k) ≠ 0 := by
  intro h
  have heq : s = s >>> k := Nat.xor_eq_zero.1 h
  rw [Nat.shiftRight_eq_div_pow] at heq
  have hlt : s / 2 ^ k < s :=
    Nat.div_lt_self (Nat.pos_of_ne_zero hs) (Nat.one_lt_two_pow (by omega))
  omega

theorem xor_shr_lt (x k : Nat) (h : x < U64) : x ^^^ (x >>> k) < U64 := by
  simp only [U64] at *
  refine Nat.xor_lt_two_pow h ?_
  rw [Nat.shiftRight_eq_div_pow]
  exact lt_of_le_of_lt (Nat.div_le_self x _) h

theorem xor_shl_ne_zero (a : Nat) (ha : a ≠ 0) (hlt : a < U64) :
    a ^^^ (a <<< 25 % U64) ≠ 0 := by
  intro h
  have heq : a = a <<< 25 % U64 := Nat.xor_eq_zero.1 h
  rw [Nat.shiftLeft_eq] at heq
  have hmod : a * 2 ^ 25 ≡ a [MOD U64] := by
    show a * 2 ^ 25 % U64 = a % U64
    rw [Nat.mod_eq_of_lt hlt]
    exact heq.symm
  have hdvd : U64 ∣ a * 2 ^ 25 - a :=
    (Nat.modEq_iff_dvd' (Nat.le_mul_of_pos_right a (by norm_num))).1 hmod.symm
  have hfac : a * 2 ^ 25 - a = a * (2 ^ 25 - 1) := by
    have h1 : a * 2 ^ 25 = a * (2 ^ 25 - 1) + a := by
      have h2 : (2 ^ 25 - 1) + 1 = 2 ^ 25 := by norm_num
      calc a * 2 ^ 25 = a * ((2 ^ 25 - 1) + 1) := by rw [h2]
        _ = a * (2 ^ 25 - 1) + a := by ring
    omega
  rw [hfac] at hdvd
  have hcop : Nat.Coprime U64 (2 ^ 25 - 1) := by
    have h2 : Nat.Coprime 2 (2 ^ 25 - 1) := by
      rw [Nat.coprime_two_left, Nat.odd_iff]
      decide
    exact Nat.Coprime.pow_left 64 h2
  have hda := hcop.dvd_of_dvd_mul_right hdvd
  have : U64 ≤ a := Nat.le_of_dvd (Nat.pos_of_ne_zero ha) hda
  omega

theorem xor_shl_lt (a : Nat) (h : a < U64) : a ^^^ (a <<< 25 % U64) < U64 := by
  simp only [U64] at *
  exact Nat.xor_lt_two_pow h (Nat.mod_lt _ (by norm_num))

theorem xsStep_ne_zero (s : Nat) (hs : s ≠ 0) (hlt : s < U64) : xsStep s ≠ 0 := by
  unfold xsStep
  exact xor_shr_ne_zero _ 27
    (xor_shl_ne_zero _ (xor_shr_ne_zero s 12 hs (by norm_num)) (xor_shr_lt s 12 hlt))
    (by norm_num)

theorem xsStep_lt (s : Nat) (hlt : s < U64) : xsStep s < U64 := by
  unfold xsStep
  exact xor_shr_lt _ 27 (xor_shl_lt _ (xor_shr_lt s 12 hlt))

theorem outWord_ne_zero (s : Nat) (hs : s ≠ 0) (hlt : s < U64) : outWord s ≠ 0 := by
  intro h
  have hdvd : U64 ∣ s * MULT := Nat.dvd_of_mod_eq_zero h
  have hcop : Nat.Coprime U64 MULT := by
    have h2 : Nat.Coprime 2 MULT := by
      rw [Nat.coprime_two_left, Nat.odd_iff]
      rfl
    exact Nat.Coprime.pow_left 64 h2
  have hda := hcop.dvd_of_dvd_mul_right hdvd
  have : U64 ≤ s := Nat.le_of_dvd (Nat.pos_of_ne_zero hs) hda
  simp only [U64] at this hlt
  omega

theorem fillBuf_inv (n s : Nat) (hs : s ≠ 0) (hlt : s < U64) :
    (∀ x ∈ (fillBuf s n).1, x ≠ 0) ∧ (fillBuf s n).2 ≠ 0 ∧ (fillBuf s n).2 < U64 := by
  induction n generalizing s with
  | zero =>
    refine ⟨?_, hs, hlt⟩
    intro x hx
    simp [fillBuf] at hx
  | succ n ih =>
    have h1 : xsStep s ≠ 0 := xsStep_ne_zero s hs hlt
    have h2 : xsStep s < U64 := xsStep_lt s hlt
    obtain ⟨ha, hb, hc⟩ := ih (xsStep s) h1 h2
    rw [fillBuf_succ]
    refine ⟨?_, hb, hc⟩
    intro x hx
    rcases List.mem_cons.1 hx with hx | hx
    · subst hx
      exact outWord_ne_zero (xsStep s) h1 h2
    · exact ha x hx

theorem bytesToWord_lt (b0 b1 b2 b3 b4 b5 b6 b7 : Nat) (h0 : b0 < 256)
    (h1 : b1 < 256) (h2 : b2 < 256) (h3 : b3 < 256) (h4 : b4 < 256)
    (h5 : b5 < 256) (h6 : b6 < 256) (h7 : b7 < 256) :
    bytesToWord b0 b1 b2 b3 b4 b5 b6 b7 < U64 := by
  simp only [bytesToWord, U64]
  omega

theorem bytesToWords_lt (bs : List Nat) (hb : ∀ x ∈ bs, x < 256) :
    ∀ wd ∈ bytesToWords bs, wd < U64 := by
  induction bs using bytesToWords.induct with
  | case1 b0 b1 b2 b3 b4 b5 b6 b7 rest ih =>
    intro wd hwd
    rw [show bytesToWords (b0 :: b1 :: b2 :: b3 :: b4 :: b5 :: b6 :: b7 :: rest) =
        bytesToWord b0 b1 b2 b3 b4 b5 b6 b7 :: bytesToWords rest from rfl] at hwd
    rcases List.mem_cons.1 hwd with h | h
    · subst h
      apply bytesToWord_lt <;> apply hb <;> simp
    · refine ih (fun x hx => hb x ?_) wd h
      simp [hx]
  | case2 l h =>
    intro wd hwd
    rcases l with _ | ⟨a, _ | ⟨b, _ | ⟨c, _ | ⟨d, _ | ⟨e, _ | ⟨f, _ | ⟨g, _ | ⟨x, t⟩⟩⟩⟩⟩⟩⟩⟩ <;>
      first
        | (exact absurd rfl (h _ _ _ _ _ _ _ _ _))
        | simp [bytesToWords] at hwd

theorem doFills_inv (w : World) (n s i : Nat) (hs : s ≠ 0) (hlt : s < U64) :
    ∀ c ∈ outputs (doFills w n s i), ∀ x ∈ c, x ≠ 0 := by
  induction n generalizing s i with
  | zero =>
    intro c hc
    simp [doFills_zero, outputs] at hc
  | succ n ih =>
    rcases h : w.write i with _ | _ | _
    · rw [doFills_ok w n s i h]
      intro c hc
      simp only [outputs, List.filterMap_cons, Event.chunkOf] at hc
      obtain ⟨h1, h2, h3⟩ := fillBuf_inv BUF_WORDS s hs hlt
      rcases List.mem_cons.1 hc with hc | hc
      · subst hc
        exact h1
      · exact ih (fillBuf s BUF_WORDS).2 (i + 1) h2 h3 c hc
    · rw [doFills_bp w n s i h]
      intro c hc
      simp [outputs, Event.chunkOf] at hc
    · rw [doFills_fatal w n s i h]
      intro c hc
      simp [outputs, Event.chunkOf] at hc

theorem doSeeds_inv (w : World) (seeds : List Nat) (i : Nat)
    (hseeds : ∀ s ∈ seeds, s < U64) :
    ∀ c ∈ outputs (doSeeds w seeds i), ∀ x ∈ c, x ≠ 0 := by
  induction seeds generalizing i with
  | nil =>
    intro c hc
    simp [doSeeds_nil, outputs] at hc
  | cons s rest ih =>
    have hrest : ∀ x ∈ rest, x < U64 :=
      fun x hx => hseeds x (List.mem_cons_of_mem s hx)
    by_cases hs : s = 0
    · subst hs
      rw [doSeeds_zero]
      intro c hc
      simp only [outputs, List.filterMap_cons, Event.chunkOf] at hc
      exact ih i hrest c hc
    · have hslt : s < U64 := hseeds s (List.mem_cons_self s rest)
      rcases hres : (doFills w RESEED_INTERVAL s i).res with _ | r
      · rw [doSeeds_pos_cont w s rest i hs hres]
        intro c hc
        simp only [outputs, List.filterMap_cons, List.filterMap_append,
          Event.chunkOf] at hc
        rcases List.mem_append.1 hc with hc | hc
        · exact doFills_inv w RESEED_INTERVAL s i hs hslt c hc
        · exact ih _ hrest c hc
      · rw [doSeeds_pos_stop w s rest i r hs hres]
        intro c hc
        simp only [outputs, List.filterMap_cons, Event.chunkOf] at hc
        exact doFills_inv w RESEED_INTERVAL s i hs hslt c hc

theorem run_outputs_nonzero (w : World)
    (hw : ∀ r b, w.refill r = some b → ∀ x ∈ b, x < 256) (fuel r i : Nat) :
    ∀ c ∈ outputs (run w fuel r i), ∀ x ∈ c, x ≠ 0 := by
  induction fuel generalizing r i with
  | zero =>
    intro c hc
    simp [run_zero, outputs] at hc
  | succ fuel ih =>
    rcases hr : w.refill r with _ | bytes
    · rw [run_refillErr w fuel r i hr]
      intro c hc
      simp [outputs, Event.chunkOf] at hc
    · have hbw := bytesToWords_lt bytes (hw r bytes hr)
      rcases hres : (doSeeds w (bytesToWords bytes) i).res with _ | res
      · rw [run_cont w fuel r i bytes hr hres]
        intro c hc
        simp only [outputs, List.filterMap_cons, List.filterMap_append,
          Event.chunkOf] at hc
        rcases List.mem_append.1 hc with hc | hc
        · exact doSeeds_inv w _ i hbw c hc
        · exact ih (r + 1) _ c hc
      · rw [run_stop w fuel r i bytes res hr hres]
        intro c hc
        simp only [outputs, List.filterMap_cons, Event.chunkOf] at hc
        exact doSeeds_inv w _ i hbw c hc

/-- C9: for every non-zero 64-bit state, one advance step yields a non-zero
64-bit state (each xorshift stage is injective and fixes only 0), the
emitted word (state times the odd constant, mod `2 ^ 64`) is non-zero, and
consequently every 64-bit word a run ever writes to the sink is non-zero
(for any world whose entropy source supplies genuine bytes). -/
theorem state_and_output_nonzero (w : World)
    (hw : ∀ r b, w.refill r = some b → ∀ x ∈ b, x < 256) (fuel r i : Nat) :
    (∀ s, s ≠ 0 → s < U64 → xsStep s ≠ 0 ∧ xsStep s < U64 ∧ outWord s ≠ 0)
    ∧ ∀ c ∈ outputs (run w fuel r i), ∀ x ∈ c, x ≠ 0 :=
  ⟨fun s hs hlt => ⟨xsStep_ne_zero s hs hlt, xsStep_lt s hlt,
      outWord_ne_zero s hs hlt⟩,
    run_outputs_nonzero w hw fuel r i⟩

theorem state_and_output_nonzero_w :
    (∀ s, s ≠ 0 → s < U64 → xsStep s ≠ 0 ∧ xsStep s < U64 ∧ outWord s ≠ 0)
    ∧ ∀ c ∈ outputs (run okW 1 0 0), ∀ x ∈ c, x ≠ 0 :=
  state_and_output_nonzero okW
    (fun r b h x hx => by
      simp only [okW] at h
      injection h with h2
      subst h2
      simp at hx)
    1 0 0

/-! ## C10: the byte views of the word buffers are exact -/

theorem u64ToBytes_length (x : Nat) : (u64ToBytes x).length = 8 := rfl

theorem wordsToBytes_length (ws : List Nat) :
    (wordsToBytes ws).length = 8 * ws.length := by
  induction ws with
  | nil => rfl
  | cons w ws ih =>
    simp only [wordsToBytes, List.length_append, List.length_cons, ih,
      u64ToBytes_length]
    ring

theorem doFills_chunk_len (w : World) (n s i : Nat) :
    ∀ c ∈ outputs (doFills w n s i), c.length = BUF_WORDS := by
  induction n generalizing s i with
  | zero =>
    intro c hc
    simp [doFills_zero, outputs] at hc
  | succ n ih =>
    rcases h : w.write i with _ | _ | _
    · rw [doFills_ok w n s i h]
      intro c hc
      simp only [outputs, List.filterMap_cons, Event.chunkOf] at hc
      rcases List.mem_cons.1 hc with hc | hc
      · subst hc
        exact fillBuf_len s BUF_WORDS
      · exact ih (fillBuf s BUF_WORDS).2 (i + 1) c hc
    · rw [doFills_bp w n s i h]
      intro c hc
      simp [outputs, Event.chunkOf] at hc
    · rw [doFills_fatal w n s i h]
      intro c hc
      simp [outputs, Event.chunkOf] at hc

theorem doSeeds_chunk_len (w : World) (seeds : List Nat) (i : Nat) :
    ∀ c ∈ outputs (doSeeds w seeds i), c.length = BUF_WORDS := by
  induction seeds generalizing i with
  | nil =>
    intro c hc
    simp [doSeeds_nil, outputs] at hc
  | cons s rest ih =>
    by_cases hs : s = 0
    · subst hs
      rw [doSeeds_zero]
      intro c hc
      simp only [outputs, List.filterMap_cons, Event.chunkOf] at hc
      exact ih i c hc
    · rcases hres : (doFills w RESEED_INTERVAL s i).res with _ | r
      · rw [doSeeds_pos_cont w s rest i hs hres]
        intro c hc
        simp only [outputs, List.filterMap_cons, List.filterMap_append,
          Event.chunkOf] at hc
        rcases List.mem_append.1 hc with hc | hc
        · exact doFills_chunk_len w RESEED_INTERVAL s i c hc
        · exact ih _ c hc
      · rw [doSeeds_pos_stop w s rest i r hs hres]
        intro c hc
        simp only [outputs, List.filterMap_cons, Event.chunkOf] at hc
        exact doFills_chunk_len w RESEED_INTERVAL s i c hc

theorem run_chunk_len (w : World) (fuel r i : Nat) :
    ∀ c ∈ outputs (run w fuel r i), c.length = BUF_WORDS := by
  induction fuel generalizing r i with
  | zero =>
    intro c hc
    simp [run_zero, outputs] at hc
  | succ fuel ih =>
    rcases hr : w.refill r with _ | bytes
    · rw [run_refillErr w fuel r i hr]
      intro c hc
      simp [outputs, Event.chunkOf] at hc
    · rcases hres : (doSeeds w (bytesToWords bytes) i).res with _ | res
      · rw [run_cont w fuel r i bytes hr hres]
        intro c hc
        simp only [outputs, List.filterMap_cons, List.filterMap_append,
          Event.chunkOf] at hc
        rcases List.mem_append.1 hc with hc | hc
        · exact doSeeds_chunk_len w _ i c hc
        · exact ih (r + 1) _ c hc
      · rw [run_stop w fuel r i bytes res hr hres]
        intro c hc
        simp only [outputs, List.filterMap_cons, Event.chunkOf] at hc
        exact doSeeds_chunk_len w _ i c hc

theorem doFills_no_refill (w : World) (n s i : Nat) :
    ∀ bs, Event.refillOk bs ∉ (doFills w n s i).trace := by
  induction n generalizing s i with
  | zero =>
    intro bs hbs
    simp [doFills_zero] at hbs
  | succ n ih =>
    rcases h : w.write i with _ | _ | _
    · rw [doFills_ok w n s i h]
      intro bs hbs
      rcases List.mem_cons.1 hbs with hbs | hbs
      · exact Event.noConfusion hbs
      · exact ih (fillBuf s BUF_WORDS).2 (i + 1) bs hbs
    · rw [doFills_bp w n s i h]
      intro bs hbs
      simp at hbs
    · rw [doFills_fatal w n s i h]
      intro bs hbs
      simp at hbs

theorem doSeeds_no_refill (w : World) (seeds : List Nat) (i : Nat) :
    ∀ bs, Event.refillOk bs ∉ (doSeeds w seeds i).trace := by
  induction seeds generalizing i with
  | nil =>
    intro bs hbs
    simp [doSeeds_nil] at hbs
  | cons s rest ih =>
    by_cases hs : s = 0
    · subst hs
      rw [doSeeds_zero]
      intro bs hbs
      rcases List.mem_cons.1 hbs with hbs | hbs
      · exact Event.noConfusion hbs
      · exact ih i bs hbs
    · rcases hres : (doFills w RESEED_INTERVAL s i).res with _ | r
      · rw [doSeeds_pos_cont w s rest i hs hres]
        intro bs hbs
        rcases List.mem_cons.1 hbs with hbs | hbs
        · exact Event.noConfusion hbs
        · rcases List.mem_append.1 hbs with hbs | hbs
          · exact doFills_no_refill w RESEED_INTERVAL s i bs hbs
          · exact ih _ bs hbs
      · rw [doSeeds_pos_stop w s rest i r hs hres]
        intro bs hbs
        rcases List.mem_cons.1 hbs with hbs | hbs
        · exact Event.noConfusion hbs
        · exact doFills_no_refill w RESEED_INTERVAL s i bs hbs

theorem run_refill_len (w : World)
    (hrd : ∀ r b, w.refill r = some b → b.length = BUF_SIZE) (fuel r i : Nat) :
    ∀ bs, Event.refillOk bs ∈ (run w fuel r i).trace → bs.length = BUF_SIZE := by
  induction fuel generalizing r i with
  | zero =>
    intro bs hbs
    simp [run_zero] at hbs
  | succ fuel ih =>
    rcases hr : w.refill r with _ | bytes
    · rw [run_refillErr w fuel r i hr]
      intro bs hbs
      simp at hbs
    · rcases hres : (doSeeds w (bytesToWords bytes) i).res with _ | res
      · rw [run_cont w fuel r i bytes hr hres]
        intro bs hbs
        rcases List.mem_cons.1 hbs with hbs | hbs
        · injection hbs with hbs
          subst hbs
          exact hrd r bs hr
        · rcases List.mem_append.1 hbs with hbs | hbs
          · exact absurd hbs (doSeeds_no_refill w _ i bs)
          · exact ih (r + 1) _ bs hbs
      · rw [run_stop w fuel r i bytes res hr hres]
        intro bs hbs
        rcases List.mem_cons.1 hbs with hbs | hbs
        · injection hbs with hbs
          subst hbs
          exact hrd r bs hr
        · exact absurd hbs (doSeeds_no_refill w _ i bs)

/-- C10: the byte reinterpretation of each `BUF_WORDS`-word buffer is exact
— `8 * BUF_WORDS = BUF_SIZE` with nothing left over — so when the entropy
source honours `read_exact` (returns exactly the requested `BUF_SIZE`
bytes), every refill carries exactly `BUF_SIZE` bytes and every chunk
written to the sink is `BUF_WORDS` words, i.e. exactly `BUF_SIZE` bytes. -/
theorem buffer_byte_views_exact (w : World)
    (hrd : ∀ r b, w.refill r = some b → b.length = BUF_SIZE) (fuel r i : Nat) :
    8 * BUF_WORDS = BUF_SIZE
    ∧ (∀ c ∈ outputs (run w fuel r i),
        c.length = BUF_WORDS ∧ (wordsToBytes c).length = BUF_SIZE)
    ∧ ∀ bs, Event.refillOk bs ∈ (run w fuel r i).trace → bs.length = BUF_SIZE := by
  refine ⟨by norm_num [BUF_WORDS, BUF_SIZE], ?_, run_refill_len w hrd fuel r i⟩
  intro c hc
  have h1 := run_chunk_len w fuel r i c hc
  refine ⟨h1, ?_⟩
  rw [wordsToBytes_length, h1]
  norm_num [BUF_WORDS, BUF_SIZE]

theorem buffer_byte_views_exact_w :
    8 * BUF_WORDS = BUF_SIZE
    ∧ (∀ c ∈ outputs (run wZ 1 0 0),
        c.length = BUF_WORDS ∧ (wordsToBytes c).length = BUF_SIZE)
    ∧ ∀ bs, Event.refillOk bs ∈ (run wZ 1 0 0).trace → bs.length = BUF_SIZE :=
  buffer_byte_views_exact wZ
    (fun r b h => by
      simp only [wZ] at h
      injection h with h2
      subst h2
      exact List.length_replicate BUF_SIZE 0)
    1 0 0

end GenRandom
